import Mathlib

/-
Verification of the axis range-fitting, tick-generation and coordinate-projection
core of the Locus chart toolkit.

The Rust sources (src/plottable/{mod,ticks,view,line}.rs) are shallowly embedded
over exact rationals: every `f32` becomes a `ℚ`, `f32::EPSILON` and
`f32::MIN_POSITIVE` become the exact constants 2^-23 and 2^-126, and the
`log/floor` pairs used by the code become exact integer-valued logarithms.
NaN and infinity do not exist over ℚ; the places where the Rust code would
produce them are noted on the corresponding definitions.
-/

attribute [local semireducible] Rat.mul Rat.inv Rat.add Rat.sub Rat.ofScientific

namespace Locus

/-- Machine epsilon of `f32` (`f32::EPSILON` = 2^-23) as an exact rational. -/
def eps : ℚ := 1 / 2 ^ 23

/-- Smallest positive normal `f32` (`f32::MIN_POSITIVE` = 2^-126) as an exact rational. -/
def minPositive : ℚ := 1 / 2 ^ 126

/-- Rust `f32::round`: nearest integer, ties away from zero. -/
def rustRound (q : ℚ) : ℤ := if 0 ≤ q then ⌊q + 1/2⌋ else -⌊-q + 1/2⌋

/-- Nearest integer with ties to even, the rounding applied by Rust's fixed-precision
decimal formatting. -/
def roundTiesEven (q : ℚ) : ℤ :=
  if q - ⌊q⌋ < 1/2 then ⌊q⌋
  else if 1/2 < q - ⌊q⌋ then ⌊q⌋ + 1
  else if ⌊q⌋ % 2 = 0 then ⌊q⌋ else ⌊q⌋ + 1

/-- Inclusive integer range `a..=b` as a list, empty when `b < a`. -/
def intRange (a b : ℤ) : List ℤ := (List.range (b + 1 - a).toNat).map (fun (i : ℕ) => a + (i : ℤ))

/-- Fuel for the logarithm searches below. For rational `base > 1` and `x ≥ 1`,
Bernoulli's inequality gives `base ^ n ≥ 1 + n / base.den`, so the exponent sought by
either search is below `base.den * (x.num + 1)`. -/
def logFuel (base x : ℚ) : ℕ := base.den * (x.num.natAbs + 1)

/-- Largest `n` (bounded by `fuel`) with `base ^ n ≤ x`, entered with `p = base ^ n`. -/
def flogAux (base x : ℚ) : ℕ → ℕ → ℚ → ℕ
  | 0, n, _ => n
  | fuel + 1, n, p => if p * base ≤ x then flogAux base x fuel (n + 1) (p * base) else n

/-- Smallest `n` (bounded by `fuel`) with `x ≤ base ^ n`, entered with `p = base ^ n`. -/
def clogAux (base x : ℚ) : ℕ → ℕ → ℚ → ℕ
  | 0, n, _ => n
  | fuel + 1, n, p => if x ≤ p then n else clogAux base x fuel (n + 1) (p * base)

/-- Floor of `log_base x` over ℚ: models the Rust pattern `x.log(base).floor() as i32`
evaluated exactly. Meaningful for `base > 1` and `x > 0`; outside that domain the Rust
expression passes NaN or ±∞ into the saturating cast and this model likewise returns an
unspecified junk value. -/
def flogQ (base x : ℚ) : ℤ :=
  if 1 ≤ x then (flogAux base x (logFuel base x) 0 1 : ℤ)
  else -(clogAux base x⁻¹ (logFuel base x⁻¹) 0 1 : ℤ)

/-- Ceiling of `log_base x` over ℚ: models `x.log(base).ceil() as i32`. -/
def clogQ (base x : ℚ) : ℤ :=
  if 1 ≤ x then (clogAux base x (logFuel base x) 0 1 : ℤ)
  else -(flogAux base x⁻¹ (logFuel base x⁻¹) 0 1 : ℤ)

/-- Embeds `common::nice_number` (src/plottable/mod.rs). The `f32` pair
`value.log10().floor()` / `10.0_f32.powf(exponent)` is modelled by the exact floor
logarithm `flogQ 10` and the exact integer power. -/
def nice_number (value : ℚ) (round : Bool) : ℚ :=
  let exponent : ℤ := flogQ 10 value
  let fraction : ℚ := value / (10 : ℚ) ^ exponent
  let nice_fraction : ℚ :=
    if round then
      if fraction < 3/2 then 1
      else if fraction < 3 then 2
      else if fraction < 7 then 5
      else 10
    else if fraction ≤ 1 then 1
    else if fraction ≤ 2 then 2
    else if fraction ≤ 5 then 5
    else 10
  nice_fraction * (10 : ℚ) ^ exponent

/-- Embeds `common::linear_spacing`. The ceil-snap of `val_max` divides the raw `mx`
argument by the step, exactly as the source does (`(max / step).ceil()`), not the
normalized `high`. -/
def linear_spacing (mn mx : ℚ) (max_ticks : ℕ) : ℚ × ℚ × ℚ :=
  let low := min mn mx
  let high := max mn mx
  let degenerate := |high - low| < eps
  let low := if degenerate then low - 1 else low
  let high := if degenerate then high + 1 else high
  let n : ℚ := ((max max_ticks 2 : ℕ) : ℚ)
  let step := nice_number (max ((high - low) / (n - 1)) eps) true
  let val_min := (⌊low / step⌋ : ℚ) * step
  let val_max := (⌈mx / step⌉ : ℚ) * step
  (val_min, val_max, step)

/-- Embeds `common::log_spacing`. Over ℚ the `None` cases of the two `partial_cmp`
calls cannot arise, so the guard reduces to `base < 1 ∨ high < 0`. -/
def log_spacing (mn mx base : ℚ) (include_minor : Bool) :
    Option (ℚ × ℚ × List ℚ × Option (List ℚ)) :=
  let low := min mn mx
  let high := max mn mx
  if base < 1 ∨ high < 0 then none
  else
    let low_pos := max low minPositive
    let e0 := flogQ base low_pos
    let e1 := clogQ base high
    let majors := (intRange e0 e1).filterMap (fun (e : ℤ) =>
      let tick := base ^ e
      if low ≤ tick ∧ tick < high then some tick else none)
    let minor_max : ℤ := ⌊base⌋
    let minors := (intRange e0 e1).flatMap (fun (e : ℤ) =>
      if 3 ≤ minor_max then
        (intRange 2 (minor_max - 1)).filterMap (fun (m : ℤ) =>
          let minor_val := (m : ℚ) * base ^ e
          if low ≤ minor_val ∧ minor_val < high then some minor_val else none)
      else [])
    some (low_pos, high, majors, if include_minor then some minors else none)

/-- Decimal digits of a natural number, most significant first. -/
def natDigits (n : ℕ) : List Char := Nat.toDigits 10 n

/-- Left-pad a digit list with zeros up to length `n`. -/
def padZeros (l : List Char) (n : ℕ) : List Char := List.replicate (n - l.length) '0' ++ l

/-- Embeds `ticks::format_tick`: fixed-point rendering of `v` with `decimals` digits,
with trailing zeros (and a bare trailing point) stripped and "-0" normalized to "0". -/
def format_tick (v : ℚ) (decimals : ℕ) : String :=
  let scaled := roundTiesEven (v * (10 : ℚ) ^ decimals)
  let ds := padZeros (natDigits scaled.natAbs) (decimals + 1)
  let intPart := ds.take (ds.length - decimals)
  let fracTrimmed := ((ds.drop (ds.length - decimals)).reverse.dropWhile (fun c => c == '0')).reverse
  let body := if fracTrimmed.isEmpty then String.mk intPart else String.mk (intPart ++ '.' :: fracTrimmed)
  let s := if v < 0 then "-" ++ body else body
  if s = "-0" then "0" else s

/-- Decimal rendering of an integer (no sign for naturals, a leading "-" otherwise). -/
def intRepr (z : ℤ) : String :=
  if z < 0 then "-" ++ String.mk (natDigits z.natAbs) else String.mk (natDigits z.natAbs)

/-- Models Rust `format!("{v:.0e}")`, the branch of `format_log_label` taken outside
`[0.01, 1000)`. -/
def format_sci (v : ℚ) : String :=
  if v = 0 then "0e0"
  else
    let e := flogQ 10 |v|
    let m := roundTiesEven (|v| / (10 : ℚ) ^ e)
    let m2 := if m = 10 then 1 else m
    let e2 := if m = 10 then e + 1 else e
    (if v < 0 then "-" else "") ++ intRepr m2 ++ "e" ++ intRepr e2

/-- Embeds `ticks::format_log_label`. -/
def format_log_label (v : ℚ) : String :=
  if 1/100 ≤ v ∧ v < 1000 then format_tick v 6 else format_sci v

/-- Embeds `ticks::decimals_for_step`; the `!step.is_finite()` disjunct of the first
guard is vacuous over ℚ. -/
def decimals_for_step (step : ℚ) : ℕ :=
  if step ≤ 0 then 0
  else if 1 ≤ step then 0
  else (-flogQ 10 step).toNat

/-- Embeds `ticks::Tick`. -/
structure Tick where
  value : ℚ
  label : String
  major : Bool
deriving DecidableEq

/-- Embeds `line::Separation`. -/
inductive Separation where
  | Auto : Separation
  | Value : ℚ → Separation
deriving DecidableEq

/-- Embeds `ticks::Scale`. -/
inductive Scale where
  | Linear : Scale
  | Log : (base : ℚ) → (include_minor : Bool) → Scale
  | SymLog : (base : ℚ) → (lin_threshold : ℚ) → (include_minor : Bool) → Scale

/-- Embeds `ticks::TickSpec`. -/
structure TickSpec where
  scale : Scale
  max_ticks : ℕ
  separation : Separation

/-- Embeds `ticks::TickSet`. -/
structure TickSet where
  step : Option ℚ
  ticks : List Tick

/-- Zero-snap tolerance of `linear_ticks`: `1e-7 * step.max(1.0)`. -/
def snapTol (step : ℚ) : ℚ := (1 / 10 ^ 7) * max step 1

/-- Embeds `TickSet::linear_ticks`. The `v.is_finite()` half of the separation guard
is vacuously true over ℚ. -/
def linear_ticks (mn mx : ℚ) (spec : TickSpec) : TickSet :=
  let s := linear_spacing mn mx spec.max_ticks
  let val_min := s.1
  let val_max := s.2.1
  let step0 := s.2.2
  let step := match spec.separation with
    | .Value v => if 0 < v then v else step0
    | .Auto => step0
  let k0 := rustRound (val_min / step)
  let k1 := rustRound (val_max / step)
  let dec := decimals_for_step step
  let ticks := (intRange k0 k1).map (fun (k : ℤ) =>
    let v0 := (k : ℚ) * step
    let v := if |v0| < snapTol step then 0 else v0
    Tick.mk v (format_tick v dec) true)
  TickSet.mk (some step) ticks

/-- Stable insertion used by `sortTicks`: an element goes after every already-placed
element whose value does not exceed it. -/
def insertTick (t : Tick) : List Tick → List Tick
  | [] => [t]
  | u :: us => if u.value ≤ t.value then u :: insertTick t us else t :: u :: us

/-- Stable sort of ticks by value; models Rust's stable
`sort_by(|a,b| a.value.partial_cmp(&b.value).unwrap())`. -/
def sortTicks : List Tick → List Tick
  | [] => []
  | t :: ts => insertTick t (sortTicks ts)

/-- Tail worker of `dedupTicks`: drop every element within `1e-6` of the last
retained one. -/
def dedupGo (kept : Tick) : List Tick → List Tick
  | [] => []
  | u :: us => if |u.value - kept.value| < 1 / 10 ^ 6 then dedupGo kept us else u :: dedupGo u us

/-- Models `Vec::dedup_by(|a, b| (a.value - b.value).abs() < 1e-6)`: of each run of
nearby values only the first element survives. -/
def dedupTicks : List Tick → List Tick
  | [] => []
  | t :: ts => t :: dedupGo t ts

/-- Embeds `TickSet::log_ticks`. -/
def log_ticks (mn mx base : ℚ) (include_minor : Bool) : TickSet :=
  match log_spacing mn mx base include_minor with
  | some (_, _, major_ticks, minor_ticks) =>
    let ticks := major_ticks.map (fun v => Tick.mk v (format_log_label v) true)
    let ticks := ticks ++ (match minor_ticks with
      | some ms => ms.map (fun v => Tick.mk v "" false)
      | none => [])
    TickSet.mk none (sortTicks ticks)
  | none => TickSet.mk none []

/-- Embeds `TickSet::symlog_ticks`. Over ℚ the `partial_cmp` guard reduces to
`base < 1 ∨ lin_threshold < 1`. -/
def symlog_ticks (mn mx base lin_threshold : ℚ) (include_minor : Bool)
    (max_ticks : ℕ) : TickSet :=
  let lo := min mn mx
  let hi := max mn mx
  if base < 1 ∨ lin_threshold < 1 then TickSet.mk none []
  else
    let core_lo := max lo (-lin_threshold)
    let core_hi := min hi lin_threshold
    let coreTicks :=
      if core_lo ≤ core_hi then
        (linear_ticks core_lo core_hi
          (TickSpec.mk Scale.Linear (min (max max_ticks 3) 7) Separation.Auto)).ticks.map
          (fun t => Tick.mk t.value t.label
            (decide (abs t.value < eps ∨ abs (abs t.value - lin_threshold) < eps)))
      else []
    let posTicks :=
      if lin_threshold < hi then (log_ticks lin_threshold hi base include_minor).ticks else []
    let negTicks :=
      if lo < -lin_threshold then
        ((log_ticks lin_threshold (-lo) base include_minor).ticks).map
          (fun t => Tick.mk (-t.value) (if t.label = "" then "" else "-" ++ t.label) t.major)
      else []
    TickSet.mk none (dedupTicks (sortTicks (coreTicks ++ posTicks ++ negTicks)))

/-- Embeds `TickSet::generate_ticks`. -/
def generate_ticks (mn mx : ℚ) (spec : TickSpec) : TickSet :=
  match spec.scale with
  | .Linear => linear_ticks mn mx spec
  | .Log base include_minor => log_ticks mn mx base include_minor
  | .SymLog base lin_threshold include_minor =>
      symlog_ticks mn mx base lin_threshold include_minor spec.max_ticks

/-- Planar point over exact rationals; models raylib `Vector2` together with its
`Datapoint` / `Screenpoint` newtype wrappers (the wrappers add no behaviour). -/
structure Vec2 where
  x : ℚ
  y : ℚ
deriving DecidableEq

/-- Embeds `view::BBox` (used at both `DataBBox` and `ScreenBBox`). -/
structure BBox where
  minimum : Vec2
  maximum : Vec2
deriving DecidableEq

/-- Embeds `BBox::new`: re-orders two arbitrary corners componentwise. -/
def BBox.new (a b : Vec2) : BBox :=
  BBox.mk (Vec2.mk (min a.x b.x) (min a.y b.y)) (Vec2.mk (max a.x b.x) (max a.y b.y))

/-- Embeds `BBox::from_min_max`; the ordering invariant is only debug-asserted in the
source, so the embedding performs no check either. -/
def BBox.from_min_max (mn mx : Vec2) : BBox := BBox.mk mn mx

/-- Embeds `view::Margins`. -/
structure Margins where
  left : ℚ
  right : ℚ
  top : ℚ
  bottom : ℚ
deriving DecidableEq

/-- Embeds `view::Viewport`. -/
structure Viewport where
  x : ℚ
  y : ℚ
  width : ℚ
  height : ℚ
  margins : Margins
deriving DecidableEq

/-- Embeds `Viewport::new` (zero margins). -/
def Viewport.new (x y width height : ℚ) : Viewport :=
  Viewport.mk x y width height (Margins.mk 0 0 0 0)

/-- Embeds `Viewport::outer_bbox`. -/
def Viewport.outer_bbox (v : Viewport) : BBox :=
  BBox.new (Vec2.mk v.x v.y) (Vec2.mk (v.x + v.width) (v.y + v.height))

/-- Embeds `Viewport::inner_bbox`. -/
def Viewport.inner_bbox (v : Viewport) : BBox :=
  BBox.new (Vec2.mk (v.x + v.margins.left) (v.y + v.margins.top))
    (Vec2.mk (v.x + v.width - v.margins.right) (v.y + v.height - v.margins.bottom))

/-- Embeds `view::map_val`, including the degenerate-range guard that returns
`out_min` instead of dividing by a zero-width range. -/
def map_val (val in_min in_max out_min out_max : ℚ) : ℚ :=
  if |in_max - in_min| < eps then out_min
  else (val - in_min) / (in_max - in_min) * (out_max - out_min) + out_min

/-- Embeds `view::ViewTransformer`. -/
structure ViewTransformer where
  data_bounds : BBox
  screen_bounds : Viewport

/-- Embeds `ViewTransformer::to_screen`: affine in x, and with the swapped
(out_min, out_max) pair in y that realizes the screen-space y-inversion. -/
def ViewTransformer.to_screen (vt : ViewTransformer) (point : Vec2) : Vec2 :=
  let screen_bounds := vt.screen_bounds.inner_bbox
  Vec2.mk
    (map_val point.x vt.data_bounds.minimum.x vt.data_bounds.maximum.x
      screen_bounds.minimum.x screen_bounds.maximum.x)
    (map_val point.y vt.data_bounds.minimum.y vt.data_bounds.maximum.y
      screen_bounds.maximum.y screen_bounds.minimum.y)

/-- Embeds `line::Line` (a directed segment); `from` is a Lean keyword, hence the
field names `fromPt` / `toPt`. -/
structure Line where
  fromPt : Vec2
  toPt : Vec2
deriving DecidableEq

/-- Embeds `line::Axis`. -/
structure Axis where
  x_axis : Line
  y_axis : Line
deriving DecidableEq

/-- Embeds `line::calculate_nice_range`. -/
def calculate_nice_range (mn mx padding_pct : ℚ) (ticks : ℕ) : ℚ × ℚ :=
  if |mn - mx| < eps then (mn - 1, mx + 1)
  else
    let range := mx - mn
    let padding := range * padding_pct
    let padded_min := mn - padding
    let padded_max := mx + padding
    let padded_range := padded_max - padded_min
    let rough_step := padded_range / ((max ticks 1 : ℕ) : ℚ)
    let step := nice_number rough_step true
    let nice_min := (⌊padded_min / step⌋ : ℚ) * step
    let nice_max := (⌈padded_max / step⌉ : ℚ) * step
    (nice_min, nice_max)

/-- Step size computed inside the non-degenerate branch of `calculate_nice_range`,
restated standalone so that theorems can refer to it. -/
def nice_range_step (mn mx padding_pct : ℚ) (ticks : ℕ) : ℚ :=
  nice_number
    (((mx + (mx - mn) * padding_pct) - (mn - (mx - mn) * padding_pct))
      / ((max ticks 1 : ℕ) : ℚ)) true

/-- Embeds `Axis::fitting`; `Range<f32>` arguments are modelled as (start, end) pairs. -/
def Axis.fitting (x_range y_range : ℚ × ℚ) (padding_pct : ℚ) (ticks : ℕ) : Axis :=
  let nx := calculate_nice_range (min x_range.1 x_range.2) (max x_range.2 x_range.1)
    padding_pct ticks
  let ny := calculate_nice_range (min y_range.1 y_range.2) (max y_range.2 y_range.1)
    padding_pct ticks
  Axis.mk
    (Line.mk (Vec2.mk nx.1 ny.1) (Vec2.mk nx.2 ny.1))
    (Line.mk (Vec2.mk nx.1 ny.1) (Vec2.mk nx.1 ny.2))

/-- Embeds `Axis::data_bounds`. -/
def Axis.data_bounds (a : Axis) : BBox :=
  BBox.from_min_max
    (Vec2.mk (min a.x_axis.fromPt.x a.x_axis.toPt.x) (min a.y_axis.fromPt.y a.y_axis.toPt.y))
    (Vec2.mk (max a.x_axis.fromPt.x a.x_axis.toPt.x) (max a.y_axis.fromPt.y a.y_axis.toPt.y))

set_option maxRecDepth 100000
set_option maxHeartbeats 1600000

/-- Claim C8: the Axis built by `Axis::fitting` has its two segments sharing the same
"from" endpoint, equal to (nice_min_x, nice_min_y) of the independently nice-fitted
ranges, with the x-segment ending at (nice_max_x, nice_min_y) and the y-segment at
(nice_min_x, nice_max_y); and `data_bounds` of any Axis spans the componentwise
min/max of the segment endpoints, hence is invariant under swapping each segment's
endpoints. -/
theorem claim_C8 :
    (∀ (x_range y_range : ℚ × ℚ) (padding_pct : ℚ) (ticks : ℕ),
      (Axis.fitting x_range y_range padding_pct ticks).x_axis.fromPt =
        (Axis.fitting x_range y_range padding_pct ticks).y_axis.fromPt ∧
      (Axis.fitting x_range y_range padding_pct ticks).x_axis.fromPt =
        Vec2.mk
          (calculate_nice_range (min x_range.1 x_range.2) (max x_range.2 x_range.1)
            padding_pct ticks).1
          (calculate_nice_range (min y_range.1 y_range.2) (max y_range.2 y_range.1)
            padding_pct ticks).1 ∧
      (Axis.fitting x_range y_range padding_pct ticks).x_axis.toPt =
        Vec2.mk
          (calculate_nice_range (min x_range.1 x_range.2) (max x_range.2 x_range.1)
            padding_pct ticks).2
          (calculate_nice_range (min y_range.1 y_range.2) (max y_range.2 y_range.1)
            padding_pct ticks).1 ∧
      (Axis.fitting x_range y_range padding_pct ticks).y_axis.toPt =
        Vec2.mk
          (calculate_nice_range (min x_range.1 x_range.2) (max x_range.2 x_range.1)
            padding_pct ticks).1
          (calculate_nice_range (min y_range.1 y_range.2) (max y_range.2 y_range.1)
            padding_pct ticks).2) ∧
    (∀ l1 l2 : Line,
      (Axis.mk l1 l2).data_bounds =
        BBox.from_min_max
          (Vec2.mk (min l1.fromPt.x l1.toPt.x) (min l2.fromPt.y l2.toPt.y))
          (Vec2.mk (max l1.fromPt.x l1.toPt.x) (max l2.fromPt.y l2.toPt.y)) ∧
      (Axis.mk (Line.mk l1.toPt l1.fromPt) (Line.mk l2.toPt l2.fromPt)).data_bounds =
        (Axis.mk l1 l2).data_bounds) := by
  constructor
  · intro x_range y_range padding_pct ticks
    exact ⟨rfl, rfl, rfl, rfl⟩
  · intro l1 l2
    refine ⟨rfl, ?_⟩
    simp only [Axis.data_bounds, BBox.from_min_max]
    rw [min_comm l1.toPt.x, min_comm l2.toPt.y, max_comm l1.toPt.x, max_comm l2.toPt.y]

/-- Claim C7: for a data bounding box degenerate on an axis (the axis width is within
f32 epsilon of zero), `to_screen` sends every point to the out_min of that axis's
output range — for x the inner box's minimum x, for y the inner box's MAXIMUM y,
because the y output range is inverted. Over the rational embedding the guard makes
the result a well-defined rational (the division by the zero-width range, which in f32
would breed NaN/∞, is never taken). -/
theorem claim_C7 (vt : ViewTransformer) (p : Vec2) :
    (|vt.data_bounds.maximum.x - vt.data_bounds.minimum.x| < eps →
      (vt.to_screen p).x = vt.screen_bounds.inner_bbox.minimum.x) ∧
    (|vt.data_bounds.maximum.y - vt.data_bounds.minimum.y| < eps →
      (vt.to_screen p).y = vt.screen_bounds.inner_bbox.maximum.y) := by
  constructor <;> intro h <;>
    simp only [ViewTransformer.to_screen, map_val, if_pos h]

/-- Witness for C7 at a fully degenerate data box: both coordinates land on the
corresponding out_min of the inner box. -/
theorem claim_C7_witness :
    |(2:ℚ) - 2| < eps ∧ |(3:ℚ) - 3| < eps ∧
    ((ViewTransformer.mk (BBox.from_min_max (Vec2.mk 2 3) (Vec2.mk 2 3))
        (Viewport.new 0 0 100 50)).to_screen (Vec2.mk 7 9)).x = 0 ∧
    ((ViewTransformer.mk (BBox.from_min_max (Vec2.mk 2 3) (Vec2.mk 2 3))
        (Viewport.new 0 0 100 50)).to_screen (Vec2.mk 7 9)).y = 50 := by
  refine ⟨by decide, by decide, ?_, ?_⟩
  · exact ((claim_C7 (ViewTransformer.mk (BBox.from_min_max (Vec2.mk 2 3) (Vec2.mk 2 3))
      (Viewport.new 0 0 100 50)) (Vec2.mk 7 9)).1 (by decide)).trans (by decide)
  · exact ((claim_C7 (ViewTransformer.mk (BBox.from_min_max (Vec2.mk 2 3) (Vec2.mk 2 3))
      (Viewport.new 0 0 100 50)) (Vec2.mk 7 9)).2 (by decide)).trans (by decide)

theorem ne_of_not_small {w : ℚ} (h : ¬ |w| < eps) : w ≠ 0 := by
  intro h0
  exact h (by rw [h0]; norm_num [eps])

/-- Claim C1: for the data bounding box (0,0)–(10,10) and the 100×100 viewport at the
origin with zero margins, `to_screen` maps (0,0) ↦ (0,100), (0,10) ↦ (0,0) and
(10,0) ↦ (100,100); in general, for a data box non-degenerate on both axes,
the x-component is the affine map sending data min x to inner min x and data max x to
inner max x, and the y-component is the affine map with inverted output range sending
data min y to inner max y and data max y to inner min y. -/
theorem claim_C1 :
    ((ViewTransformer.mk (BBox.new (Vec2.mk 0 0) (Vec2.mk 10 10))
        (Viewport.new 0 0 100 100)).to_screen (Vec2.mk 0 0) = Vec2.mk 0 100 ∧
     (ViewTransformer.mk (BBox.new (Vec2.mk 0 0) (Vec2.mk 10 10))
        (Viewport.new 0 0 100 100)).to_screen (Vec2.mk 0 10) = Vec2.mk 0 0 ∧
     (ViewTransformer.mk (BBox.new (Vec2.mk 0 0) (Vec2.mk 10 10))
        (Viewport.new 0 0 100 100)).to_screen (Vec2.mk 10 0) = Vec2.mk 100 100) ∧
    ∀ vt : ViewTransformer,
      ¬ (|vt.data_bounds.maximum.x - vt.data_bounds.minimum.x| < eps) →
      ¬ (|vt.data_bounds.maximum.y - vt.data_bounds.minimum.y| < eps) →
      (∀ p : Vec2,
        (vt.to_screen p).x =
          vt.screen_bounds.inner_bbox.minimum.x +
            (p.x - vt.data_bounds.minimum.x) /
              (vt.data_bounds.maximum.x - vt.data_bounds.minimum.x) *
              (vt.screen_bounds.inner_bbox.maximum.x -
                vt.screen_bounds.inner_bbox.minimum.x) ∧
        (vt.to_screen p).y =
          vt.screen_bounds.inner_bbox.maximum.y +
            (p.y - vt.data_bounds.minimum.y) /
              (vt.data_bounds.maximum.y - vt.data_bounds.minimum.y) *
              (vt.screen_bounds.inner_bbox.minimum.y -
                vt.screen_bounds.inner_bbox.maximum.y)) ∧
      (∀ y, (vt.to_screen (Vec2.mk vt.data_bounds.minimum.x y)).x =
        vt.screen_bounds.inner_bbox.minimum.x) ∧
      (∀ y, (vt.to_screen (Vec2.mk vt.data_bounds.maximum.x y)).x =
        vt.screen_bounds.inner_bbox.maximum.x) ∧
      (∀ x, (vt.to_screen (Vec2.mk x vt.data_bounds.minimum.y)).y =
        vt.screen_bounds.inner_bbox.maximum.y) ∧
      (∀ x, (vt.to_screen (Vec2.mk x vt.data_bounds.maximum.y)).y =
        vt.screen_bounds.inner_bbox.minimum.y) := by
  constructor
  · exact ⟨by decide, by decide, by decide⟩
  · intro vt hx hy
    have hwx := ne_of_not_small hx
    have hwy := ne_of_not_small hy
    refine ⟨fun p => ⟨?_, ?_⟩, fun y => ?_, fun y => ?_, fun x => ?_, fun x => ?_⟩
    · simp only [ViewTransformer.to_screen, map_val, if_neg hx]
      ring
    · simp only [ViewTransformer.to_screen, map_val, if_neg hy]
      ring
    · simp only [ViewTransformer.to_screen, map_val, if_neg hx, sub_self, zero_div,
        zero_mul, zero_add]
    · simp only [ViewTransformer.to_screen, map_val, if_neg hx, div_self hwx, one_mul]
      ring
    · simp only [ViewTransformer.to_screen, map_val, if_neg hy, sub_self, zero_div,
        zero_mul, zero_add]
    · simp only [ViewTransformer.to_screen, map_val, if_neg hy, div_self hwy, one_mul]
      ring

/-- Witness for C1: the general affine form evaluated at the concrete transformer and
the data-space midpoint (5,5), which lands at the screen centre (50,50). -/
theorem claim_C1_witness :
    ¬ (|(10:ℚ) - 0| < eps) ∧
    ((ViewTransformer.mk (BBox.new (Vec2.mk 0 0) (Vec2.mk 10 10))
        (Viewport.new 0 0 100 100)).to_screen (Vec2.mk 5 5)).x = 50 ∧
    ((ViewTransformer.mk (BBox.new (Vec2.mk 0 0) (Vec2.mk 10 10))
        (Viewport.new 0 0 100 100)).to_screen (Vec2.mk 5 5)).y = 50 := by
  refine ⟨by decide, ?_, ?_⟩
  · have h := (claim_C1.2 (ViewTransformer.mk (BBox.new (Vec2.mk 0 0) (Vec2.mk 10 10))
      (Viewport.new 0 0 100 100)) (by decide) (by decide)).1 (Vec2.mk 5 5)
    rw [h.1]; decide
  · have h := (claim_C1.2 (ViewTransformer.mk (BBox.new (Vec2.mk 0 0) (Vec2.mk 10 10))
      (Viewport.new 0 0 100 100)) (by decide) (by decide)).1 (Vec2.mk 5 5)
    rw [h.2]; decide

/-- Claim C2, refuted by the code: the validity guards test strictly (`base < 1`, via
`partial_cmp … Ordering::Less`), so the invalid base 1 slips through. At base = 1 the
symlog generator returns a NON-empty tick set (its linear core runs normally even with
no log wing in range), and `log_spacing` does not return its `None` sentinel (in the
f32 code it then iterates on exponents obtained from NaN/∞ casts and pushes ticks).
The claim — and the code's own documentation, "base (must be > 1)" — require an empty
result for base ≤ 1. -/
theorem claim_C2_bug :
    (symlog_ticks (-1/2) (1/2) 1 1 false 5).ticks ≠ [] ∧
    (log_spacing 1 10 1 false).isSome = true := by
  exact ⟨by decide, by decide⟩

/-- Claim C3 counterexample: with the two bounds passed in reversed order
(min = 10, max = 0) the automatic linear ticks collapse to the single tick 0, which
does not reach max(min, max) = 10: `linear_spacing` ceil-snaps `val_max` from the raw
`max` argument (here 0) instead of the normalized upper bound. -/
theorem claim_C3_counterexample :
    (linear_ticks 10 0 (TickSpec.mk Scale.Linear 5 Separation.Auto)).ticks =
      [Tick.mk 0 "0" true] ∧
    ∀ t ∈ (linear_ticks 10 0 (TickSpec.mk Scale.Linear 5 Separation.Auto)).ticks,
      t.value < max (10:ℚ) 0 := by
  exact ⟨by decide, by decide⟩

/-- Claim C4 counterexample: with a negative padding percentage the output range does
not contain the input range: `calculate_nice_range 0 10 (-1/5) 5 = (2, 8)`, and the
claimed `nice_min ≤ min` fails since `2 ≤ 0` is false. -/
theorem claim_C4_counterexample :
    calculate_nice_range 0 10 (-1/5) 5 = (2, 8) ∧
    ¬ ((calculate_nice_range 0 10 (-1/5) 5).1 ≤ 0) := by
  exact ⟨by decide, by decide⟩

theorem nice_number_pos (v : ℚ) (r : Bool) : 0 < nice_number v r := by
  have h10 : (0:ℚ) < (10:ℚ) ^ flogQ 10 v := zpow_pos (by norm_num) _
  simp only [nice_number]
  split_ifs <;> first
    | exact mul_pos one_pos h10
    | exact mul_pos (by norm_num) h10

theorem linear_spacing_step_pos (mn mx : ℚ) (mt : ℕ) :
    0 < (linear_spacing mn mx mt).2.2 := by
  simp only [linear_spacing]
  exact nice_number_pos _ _

theorem floor_mul_le {x s : ℚ} (hs : 0 < s) : (⌊x / s⌋ : ℚ) * s ≤ x := by
  calc (⌊x / s⌋ : ℚ) * s ≤ (x / s) * s :=
        mul_le_mul_of_nonneg_right (Int.floor_le (x / s)) hs.le
    _ = x := div_mul_cancel₀ x hs.ne'

theorem le_ceil_mul {x s : ℚ} (hs : 0 < s) : x ≤ (⌈x / s⌉ : ℚ) * s := by
  calc x = (x / s) * s := (div_mul_cancel₀ x hs.ne').symm
    _ ≤ (⌈x / s⌉ : ℚ) * s := mul_le_mul_of_nonneg_right (Int.le_ceil (x / s)) hs.le

/-- Claim C10: the automatically computed linear step is strictly positive for every
input (the rough step is floored at machine epsilon before nice rounding), and a
non-positive explicit `Separation::Value` is ignored in favour of that computed step
(non-finite values cannot arise over ℚ, where the `is_finite` half of the guard is
vacuous), so the step the tick-index divisions use is never zero. -/
theorem claim_C10 (mn mx : ℚ) (mt : ℕ) (sep : Separation) :
    ∃ s, (linear_ticks mn mx (TickSpec.mk Scale.Linear mt sep)).step = some s ∧ 0 < s ∧
      ∀ v, sep = Separation.Value v → v ≤ 0 → s = (linear_spacing mn mx mt).2.2 := by
  have hpos := linear_spacing_step_pos mn mx mt
  cases sep with
  | Auto =>
    refine ⟨(linear_spacing mn mx mt).2.2, rfl, hpos, ?_⟩
    intro v hv
    exact nomatch hv
  | Value v =>
    by_cases h : 0 < v
    · refine ⟨v, ?_, h, ?_⟩
      · simp [linear_ticks, h]
      · intro w hw hw0
        injection hw with hvw
        exact absurd (hvw ▸ h) (not_lt.mpr hw0)
    · refine ⟨(linear_spacing mn mx mt).2.2, ?_, hpos, fun w _ _ => rfl⟩
      simp [linear_ticks, h]

/-- Witness for C10: a negative explicit separation value (-1) is ignored and the
computed step 2 (for the range [0,10] with 5 ticks) is used instead. -/
theorem claim_C10_witness :
    (linear_ticks 0 10 (TickSpec.mk Scale.Linear 5 (Separation.Value (-1)))).step = some 2 ∧
    (0:ℚ) < 2 := by
  obtain ⟨s, h1, _, h3⟩ := claim_C10 0 10 5 (Separation.Value (-1))
  have hs : s = (linear_spacing 0 10 5).2.2 := h3 (-1) rfl (by norm_num)
  refine ⟨?_, by norm_num⟩
  rw [h1, hs]; decide

/-- Claim C4 (amended): for min ≤ max and a non-negative padding percentage,
`calculate_nice_range` returns a pair containing the padded input range, and — in the
non-degenerate branch, where a step is computed at all — both ends are exact integer
multiples of the (strictly positive) computed nice step. The original claim fails for
negative padding (see the counterexample) and leaves the step undefined in the
degenerate branch, which returns (min-1, max+1) without computing one. -/
theorem claim_C4 (mn mx padding_pct : ℚ) (ticks : ℕ)
    (hmn : mn ≤ mx) (hp : 0 ≤ padding_pct) :
    (calculate_nice_range mn mx padding_pct ticks).1 ≤ mn ∧
    mx ≤ (calculate_nice_range mn mx padding_pct ticks).2 ∧
    0 < nice_range_step mn mx padding_pct ticks ∧
    (¬ (|mn - mx| < eps) →
      ∃ k1 k2 : ℤ,
        (calculate_nice_range mn mx padding_pct ticks).1 =
          k1 * nice_range_step mn mx padding_pct ticks ∧
        (calculate_nice_range mn mx padding_pct ticks).2 =
          k2 * nice_range_step mn mx padding_pct ticks) := by
  have hstep : 0 < nice_range_step mn mx padding_pct ticks := nice_number_pos _ _
  by_cases hdeg : |mn - mx| < eps
  · refine ⟨?_, ?_, hstep, fun h => absurd hdeg h⟩
    · simp only [calculate_nice_range, if_pos hdeg]
      linarith
    · simp only [calculate_nice_range, if_pos hdeg]
      linarith
  · have hpad : 0 ≤ (mx - mn) * padding_pct := mul_nonneg (by linarith) hp
    have hcnr : calculate_nice_range mn mx padding_pct ticks =
        ((⌊(mn - (mx - mn) * padding_pct) /
            nice_range_step mn mx padding_pct ticks⌋ : ℚ) *
          nice_range_step mn mx padding_pct ticks,
        (⌈(mx + (mx - mn) * padding_pct) /
            nice_range_step mn mx padding_pct ticks⌉ : ℚ) *
          nice_range_step mn mx padding_pct ticks) := by
      simp only [calculate_nice_range, if_neg hdeg, nice_range_step]
    rw [hcnr]
    refine ⟨?_, ?_, hstep, fun _ => ⟨_, _, rfl, rfl⟩⟩
    · exact le_trans (floor_mul_le hstep) (by linarith)
    · exact le_trans (by linarith) (le_ceil_mul hstep)

/-- Witness for C4 at (0, 10, 1/10, 5): the nice range is (-2, 12), which contains
[0, 10], with both ends multiples of the computed step 2. -/
theorem claim_C4_witness :
    (0:ℚ) ≤ 10 ∧ (0:ℚ) ≤ 1/10 ∧
    calculate_nice_range 0 10 (1/10) 5 = (-2, 12) ∧
    (calculate_nice_range 0 10 (1/10) 5).1 ≤ 0 ∧
    (10:ℚ) ≤ (calculate_nice_range 0 10 (1/10) 5).2 := by
  have h := claim_C4 0 10 (1/10) 5 (by decide) (by decide)
  exact ⟨by decide, by decide, by decide, h.1, h.2.1⟩

/-- Claim C5 counterexample: symmetric range [-10, 10], base 4.0000009, threshold 5/2,
max_ticks 3. The final set contains the core tick (4, "4") with 4 > 5/2, yet contains
NO tick at value -4: after the ascending sort, the mirrored wing tick -4.0000009
immediately precedes the core tick -4 and keep-first `dedup_by` (tolerance 1e-6)
deletes -4, while on the positive side it keeps 4 and deletes the wing tick 4.0000009
— so sign symmetry of the deduplicated set fails. -/
theorem claim_C5_counterexample :
    Tick.mk 4 "4" false ∈ (symlog_ticks (-10) 10 (40000009/10000000) (5/2) false 3).ticks ∧
    (5/2 : ℚ) < 4 ∧
    ∀ u ∈ (symlog_ticks (-10) 10 (40000009/10000000) (5/2) false 3).ticks,
      u.value ≠ -4 := by
  refine ⟨by decide, by decide, by decide⟩

theorem flogAux_spec (base x : ℚ) (_hb : 1 < base) :
    ∀ (fuel n : ℕ) (p : ℚ), p = base ^ n → base ^ n ≤ x →
      base ^ flogAux base x fuel n p ≤ x ∧
      n ≤ flogAux base x fuel n p ∧
      (flogAux base x fuel n p < n + fuel → x < base ^ (flogAux base x fuel n p + 1)) := by
  intro fuel
  induction fuel with
  | zero =>
    intro n p hp hle
    simp only [flogAux]
    exact ⟨hle, le_rfl, fun h => absurd h (by omega)⟩
  | succ fuel ih =>
    intro n p hp hle
    by_cases hc : p * base ≤ x
    · have hnext : p * base = base ^ (n + 1) := by rw [hp, pow_succ]
      have hrw : flogAux base x (fuel + 1) n p = flogAux base x fuel (n + 1) (p * base) := by
        simp only [flogAux, if_pos hc]
      rw [hrw]
      obtain ⟨h1, h2, h3⟩ := ih (n + 1) (p * base) hnext (hnext ▸ hc)
      exact ⟨h1, by omega, fun h => h3 (by omega)⟩
    · have hrw : flogAux base x (fuel + 1) n p = n := by
        simp only [flogAux, if_neg hc]
      rw [hrw]
      refine ⟨hle, le_rfl, fun _ => ?_⟩
      rw [pow_succ, ← hp]
      exact lt_of_not_le hc

theorem clogAux_spec (base x : ℚ) (_hb : 1 < base) :
    ∀ (fuel n : ℕ) (p : ℚ), p = base ^ n →
      (∀ m : ℕ, n ≤ m → m < clogAux base x fuel n p → base ^ m < x) ∧
      n ≤ clogAux base x fuel n p ∧
      (clogAux base x fuel n p < n + fuel → x ≤ base ^ clogAux base x fuel n p) := by
  intro fuel
  induction fuel with
  | zero =>
    intro n p hp
    simp only [clogAux]
    exact ⟨fun m h1 h2 => absurd (lt_of_le_of_lt h1 h2) (lt_irrefl n),
      le_rfl, fun h => absurd h (by omega)⟩
  | succ fuel ih =>
    intro n p hp
    by_cases hc : x ≤ p
    · have hrw : clogAux base x (fuel + 1) n p = n := by
        simp only [clogAux, if_pos hc]
      rw [hrw]
      exact ⟨fun m h1 h2 => absurd (lt_of_le_of_lt h1 h2) (lt_irrefl n),
        le_rfl, fun _ => hp ▸ hc⟩
    · have hnext : p * base = base ^ (n + 1) := by rw [hp, pow_succ]
      have hrw : clogAux base x (fuel + 1) n p = clogAux base x fuel (n + 1) (p * base) := by
        simp only [clogAux, if_neg hc]
      rw [hrw]
      obtain ⟨h1, h2, h3⟩ := ih (n + 1) (p * base) hnext
      refine ⟨?_, by omega, fun h => h3 (by omega)⟩
      intro m hm1 hm2
      rcases eq_or_lt_of_le hm1 with hmn | hmn
      · rw [← hmn, ← hp]
        exact lt_of_not_le hc
      · exact h1 m hmn hm2

theorem rat_le_natAbs_num (x : ℚ) (hx : 1 ≤ x) : x ≤ (x.num.natAbs : ℚ) := by
  have hnum : 0 < x.num := Rat.num_pos.mpr (by linarith)
  have habs : (x.num.natAbs : ℚ) = (x.num : ℚ) := by
    rw [Int.cast_natAbs]
    exact_mod_cast abs_of_nonneg hnum.le
  rw [habs]
  have hden0 : ((x.den : ℚ)) ≠ 0 := by
    have := x.den_pos
    positivity
  have hden1 : (1:ℚ) ≤ (x.den : ℚ) := by
    exact_mod_cast x.den_pos
  have hxmul : x * (x.den : ℚ) = (x.num : ℚ) := by
    nth_rewrite 1 [← Rat.num_div_den x]
    exact div_mul_cancel₀ _ hden0
  calc x = x * 1 := (mul_one x).symm
    _ ≤ x * (x.den : ℚ) := mul_le_mul_of_nonneg_left hden1 (by linarith)
    _ = (x.num : ℚ) := hxmul

theorem flog_fuel_escape (base x : ℚ) (hb : 2 ≤ base) (hx : 1 ≤ x) (r : ℕ)
    (hr : base ^ r ≤ x) : r < logFuel base x := by
  have h2 : (2:ℚ) ^ r ≤ x := le_trans (pow_le_pow_left₀ (by norm_num) hb r) hr
  have hrlt : (r : ℚ) < 2 ^ r := by exact_mod_cast Nat.lt_two_pow r
  have hxnum : x ≤ (x.num.natAbs : ℚ) := rat_le_natAbs_num x hx
  have : (r : ℚ) < (x.num.natAbs : ℚ) := by linarith
  have hrn : r < x.num.natAbs := by exact_mod_cast this
  have hd : 1 ≤ base.den := base.den_pos
  calc r < x.num.natAbs + 1 := by omega
    _ ≤ base.den * (x.num.natAbs + 1) := Nat.le_mul_of_pos_left _ hd
    _ = logFuel base x := rfl

theorem clog_fuel_escape (base x : ℚ) (hb : 2 ≤ base) (hx : 1 ≤ x) (r : ℕ)
    (hm : ∀ m : ℕ, m < r → base ^ m < x) : r < logFuel base x := by
  by_contra hcon
  push_neg at hcon
  have hd : 1 ≤ base.den := base.den_pos
  have hmlt : x.num.natAbs < r := by
    calc x.num.natAbs < x.num.natAbs + 1 := by omega
      _ ≤ base.den * (x.num.natAbs + 1) := Nat.le_mul_of_pos_left _ hd
      _ ≤ r := hcon
  have hlt := hm x.num.natAbs hmlt
  have hxnum : x ≤ (x.num.natAbs : ℚ) := rat_le_natAbs_num x hx
  have h2p : (x.num.natAbs : ℚ) < 2 ^ x.num.natAbs := by
    exact_mod_cast Nat.lt_two_pow _
  have hbp : (2:ℚ) ^ x.num.natAbs ≤ base ^ x.num.natAbs :=
    pow_le_pow_left₀ (by norm_num) hb _
  linarith

/-- Characterization of `flogQ`: for bases ≥ 2 (all call sites relevant to the proved
claims use base 10) and positive arguments it is exactly the floor of the base-`base`
logarithm. -/
theorem flogQ_spec (base x : ℚ) (hb : 2 ≤ base) (hx : 0 < x) :
    base ^ flogQ base x ≤ x ∧ x < base ^ (flogQ base x + 1) := by
  have hb1 : 1 < base := by linarith
  have hb0 : (0:ℚ) < base := by linarith
  by_cases h1 : 1 ≤ x
  · rw [flogQ, if_pos h1]
    obtain ⟨ha, _, hc⟩ := flogAux_spec base x hb1 (logFuel base x) 0 1
      (by rw [pow_zero]) (by rw [pow_zero]; exact h1)
    have hresc := flog_fuel_escape base x hb h1 _ ha
    have hup := hc (by omega)
    constructor
    · rw [zpow_natCast]
      exact ha
    · have : ((flogAux base x (logFuel base x) 0 1 : ℤ) + 1) =
          ((flogAux base x (logFuel base x) 0 1 + 1 : ℕ) : ℤ) := by push_cast; ring
      rw [this, zpow_natCast]
      exact hup
  · push_neg at h1
    rw [flogQ, if_neg (not_le.mpr h1)]
    have hxinv : 1 < x⁻¹ := by
      rw [lt_inv_comm₀] at *
      · exact h1
      · norm_num
      · exact hx
    obtain ⟨hm, _, hlt⟩ := clogAux_spec base x⁻¹ hb1 (logFuel base x⁻¹) 0 1
      (by rw [pow_zero])
    set r := clogAux base x⁻¹ (logFuel base x⁻¹) 0 1 with hr
    have hresc := clog_fuel_escape base x⁻¹ hb hxinv.le r (fun m hmr => hm m (by omega) hmr)
    have hup : x⁻¹ ≤ base ^ r := hlt (by omega)
    have hrpos : 1 ≤ r := by
      by_contra hr0
      push_neg at hr0
      interval_cases r
      · rw [pow_zero] at hup
        linarith
    have hprev : base ^ (r - 1) < x⁻¹ := hm (r - 1) (by omega) (by omega)
    constructor
    · rw [zpow_neg, zpow_natCast]
      rw [inv_le_comm₀ (by positivity) hx]
      exact hup
    · have hcast : (-(r:ℤ) + 1) = -((r - 1 : ℕ) : ℤ) := by
        push_cast [Nat.cast_sub hrpos]
        ring
      rw [hcast, zpow_neg, zpow_natCast]
      rw [lt_inv_comm₀ hx (by positivity)]
      exact hprev

/-- Claim C6: for every strictly positive v, `nice_number v true` equals f·10^e where
e is the floor of log10 v (characterized exactly by 10^e ≤ v < 10^(e+1)) and the
fraction v/10^e selects f = 1 below 1.5, f = 2 below 3, f = 5 below 7 and f = 10
otherwise; in particular the result is one of {1, 2, 5, 10} times a power of ten. -/
theorem claim_C6 (v : ℚ) (hv : 0 < v) :
    ∃ e : ℤ, (10:ℚ) ^ e ≤ v ∧ v < (10:ℚ) ^ (e + 1) ∧
      nice_number v true =
        (if v / (10:ℚ) ^ e < 3/2 then 1
         else if v / (10:ℚ) ^ e < 3 then 2
         else if v / (10:ℚ) ^ e < 7 then 5 else 10) * (10:ℚ) ^ e ∧
      ∃ k : ℤ, nice_number v true = (10:ℚ) ^ k ∨ nice_number v true = 2 * (10:ℚ) ^ k ∨
        nice_number v true = 5 * (10:ℚ) ^ k ∨ nice_number v true = 10 * (10:ℚ) ^ k := by
  obtain ⟨hlo, hhi⟩ := flogQ_spec 10 v (by norm_num) hv
  have hform : nice_number v true =
      (if v / (10:ℚ) ^ flogQ 10 v < 3/2 then 1
       else if v / (10:ℚ) ^ flogQ 10 v < 3 then 2
       else if v / (10:ℚ) ^ flogQ 10 v < 7 then 5 else 10) * (10:ℚ) ^ flogQ 10 v := rfl
  refine ⟨flogQ 10 v, hlo, hhi, hform, ⟨flogQ 10 v, ?_⟩⟩
  rw [hform]
  split_ifs
  · exact Or.inl (one_mul _)
  · exact Or.inr (Or.inl rfl)
  · exact Or.inr (Or.inr (Or.inl rfl))
  · exact Or.inr (Or.inr (Or.inr rfl))

/-- Witness for C6 at v = 3: the fraction is 3, which selects f = 5, and the result 5
is 5 times 10^0. -/
theorem claim_C6_witness :
    (0:ℚ) < 3 ∧ nice_number 3 true = 5 ∧
    (∃ k : ℤ, nice_number 3 true = (10:ℚ) ^ k ∨ nice_number 3 true = 2 * (10:ℚ) ^ k ∨
      nice_number 3 true = 5 * (10:ℚ) ^ k ∨ nice_number 3 true = 10 * (10:ℚ) ^ k) := by
  refine ⟨by decide, by decide, ?_⟩
  obtain ⟨e, _, _, _, hk⟩ := claim_C6 3 (by decide)
  exact hk

theorem mem_insertTick {t u : Tick} {l : List Tick} :
    u ∈ insertTick t l ↔ u = t ∨ u ∈ l := by
  induction l with
  | nil => simp [insertTick]
  | cons v vs ih =>
    by_cases h : v.value ≤ t.value
    · simp only [insertTick, if_pos h, List.mem_cons, ih]
      tauto
    · simp only [insertTick, if_neg h, List.mem_cons]

theorem pairwise_insertTick {t : Tick} {l : List Tick}
    (hl : List.Pairwise (fun a b : Tick => a.value ≤ b.value) l) :
    List.Pairwise (fun a b : Tick => a.value ≤ b.value) (insertTick t l) := by
  induction l with
  | nil => simp [insertTick]
  | cons v vs ih =>
    rcases List.pairwise_cons.mp hl with ⟨hv, hvs⟩
    by_cases h : v.value ≤ t.value
    · simp only [insertTick, if_pos h]
      refine List.pairwise_cons.mpr ⟨?_, ih hvs⟩
      intro u hu
      rcases mem_insertTick.mp hu with rfl | hu
      · exact h
      · exact hv u hu
    · simp only [insertTick, if_neg h]
      push_neg at h
      refine List.pairwise_cons.mpr ⟨?_, hl⟩
      intro u hu
      rcases List.mem_cons.mp hu with rfl | hu
      · exact h.le
      · exact le_trans h.le (hv u hu)

theorem sortTicks_sorted (l : List Tick) :
    List.Pairwise (fun a b : Tick => a.value ≤ b.value) (sortTicks l) := by
  induction l with
  | nil => exact List.Pairwise.nil
  | cons t ts ih =>
    simp only [sortTicks]
    exact pairwise_insertTick ih

theorem mem_sortTicks {u : Tick} {l : List Tick} : u ∈ sortTicks l ↔ u ∈ l := by
  induction l with
  | nil => simp [sortTicks]
  | cons t ts ih =>
    simp only [sortTicks, mem_insertTick, List.mem_cons, ih]

theorem dedupGo_sublist (kept : Tick) (l : List Tick) : (dedupGo kept l).Sublist l := by
  induction l generalizing kept with
  | nil => simp [dedupGo]
  | cons u us ih =>
    by_cases h : |u.value - kept.value| < 1 / 10 ^ 6
    · simp only [dedupGo, if_pos h]
      exact (ih kept).cons u
    · simp only [dedupGo, if_neg h]
      exact (ih u).cons₂ u

theorem dedupTicks_sublist (l : List Tick) : (dedupTicks l).Sublist l := by
  cases l with
  | nil => simp [dedupTicks]
  | cons t ts =>
    simp only [dedupTicks]
    exact (dedupGo_sublist t ts).cons₂ t

theorem snap_mono {tol x y : ℚ} (htol : 0 < tol) (h : x ≤ y) :
    (if |x| < tol then 0 else x) ≤ (if |y| < tol then 0 else y) := by
  by_cases hx : |x| < tol
  · rw [if_pos hx]
    by_cases hy : |y| < tol
    · rw [if_pos hy]
    · rw [if_neg hy]
      rcases le_abs.mp (not_lt.mp hy) with h1 | h1
      · rw [abs_lt] at hx
        linarith
      · rw [abs_lt] at hx
        linarith
  · rw [if_neg hx]
    by_cases hy : |y| < tol
    · rw [if_pos hy]
      rcases le_abs.mp (not_lt.mp hx) with h1 | h1
      · rw [abs_lt] at hy
        linarith
      · rw [abs_lt] at hy
        linarith
    · rw [if_neg hy]
      exact h

theorem snapTol_pos (step : ℚ) : 0 < snapTol step := by
  have h1 : (0:ℚ) < 1 / 10 ^ 7 := by norm_num
  have h2 : (0:ℚ) < max step 1 := lt_of_lt_of_le one_pos (le_max_right step 1)
  exact mul_pos h1 h2

theorem intRange_pairwise_lt (a b : ℤ) : List.Pairwise (· < ·) (intRange a b) := by
  unfold intRange
  refine List.Pairwise.map _ ?_ (List.pairwise_lt_range _)
  intro i j hij
  omega

theorem pairwise_tickmap (k0 k1 : ℤ) (step : ℚ) (hs : 0 < step) (dec : ℕ) :
    List.Pairwise (fun a b : Tick => a.value ≤ b.value)
      ((intRange k0 k1).map (fun (k : ℤ) =>
        let v0 := (k : ℚ) * step
        let v := if |v0| < snapTol step then 0 else v0
        Tick.mk v (format_tick v dec) true)) := by
  refine List.Pairwise.map _ ?_ (intRange_pairwise_lt k0 k1)
  intro i j hij
  have hij2 : (i:ℚ) * step ≤ (j:ℚ) * step := by
    have hije : (i:ℚ) ≤ (j:ℚ) := by exact_mod_cast hij.le
    exact mul_le_mul_of_nonneg_right hije hs.le
  exact snap_mono (snapTol_pos step) hij2

theorem linear_ticks_sorted (mn mx : ℚ) (spec : TickSpec) :
    List.Pairwise (fun a b : Tick => a.value ≤ b.value) (linear_ticks mn mx spec).ticks := by
  obtain ⟨scale, mt, sep⟩ := spec
  have hpos := linear_spacing_step_pos mn mx mt
  cases sep with
  | Auto => exact pairwise_tickmap _ _ _ hpos _
  | Value v =>
    by_cases h : 0 < v
    · simp only [linear_ticks, if_pos h]
      exact pairwise_tickmap _ _ _ h _
    · simp only [linear_ticks, if_neg h]
      exact pairwise_tickmap _ _ _ hpos _

theorem log_ticks_sorted (mn mx base : ℚ) (minor : Bool) :
    List.Pairwise (fun a b : Tick => a.value ≤ b.value) (log_ticks mn mx base minor).ticks := by
  cases h : log_spacing mn mx base minor with
  | none =>
    simp only [log_ticks, h]
    exact List.Pairwise.nil
  | some v =>
    obtain ⟨lp, hi, majors, minors⟩ := v
    simp only [log_ticks, h]
    exact sortTicks_sorted _

theorem symlog_ticks_sorted (mn mx base lin_threshold : ℚ) (minor : Bool) (mt : ℕ) :
    List.Pairwise (fun a b : Tick => a.value ≤ b.value)
      (symlog_ticks mn mx base lin_threshold minor mt).ticks := by
  by_cases h : base < 1 ∨ lin_threshold < 1
  · simp only [symlog_ticks, if_pos h]
    exact List.Pairwise.nil
  · simp only [symlog_ticks, if_neg h]
    exact List.Pairwise.sublist (dedupTicks_sublist _) (sortTicks_sorted _)

/-- Claim C9: for every min, max and TickSpec (any of the three scales), the tick
sequence returned by `generate_ticks` is ordered ascending by value — every tick's
value is ≤ every later tick's value. -/
theorem claim_C9 (mn mx : ℚ) (spec : TickSpec) :
    List.Pairwise (fun a b : Tick => a.value ≤ b.value) (generate_ticks mn mx spec).ticks := by
  obtain ⟨scale, mt, sep⟩ := spec
  cases scale with
  | Linear => exact linear_ticks_sorted mn mx _
  | Log base minor => exact log_ticks_sorted mn mx base minor
  | SymLog base thr minor => exact symlog_ticks_sorted mn mx base thr minor mt

theorem intRange_length (a b : ℤ) : (intRange a b).length = (b + 1 - a).toNat := by
  simp [intRange]

theorem intRange_getElem (a b : ℤ) (i : ℕ) (hi : i < (intRange a b).length) :
    (intRange a b)[i] = a + (i : ℤ) := by
  simp [intRange]

theorem intRange_mem_of {a b k : ℤ} (h1 : a ≤ k) (h2 : k ≤ b) : k ∈ intRange a b := by
  unfold intRange
  refine List.mem_map.mpr ⟨(k - a).toNat, ?_, ?_⟩
  · rw [List.mem_range]
    omega
  · omega

theorem rustRound_intCast (n : ℤ) : rustRound (n : ℚ) = n := by
  unfold rustRound
  by_cases h : (0:ℚ) ≤ (n:ℚ)
  · rw [if_pos h, Int.floor_int_add]
    norm_num
  · rw [if_neg h, show -(n:ℚ) + 1/2 = ((-n : ℤ) : ℚ) + 1/2 by push_cast; ring,
      Int.floor_int_add]
    norm_num

theorem rustRound_mul_div (n : ℤ) (s : ℚ) (hs : s ≠ 0) :
    rustRound ((n : ℚ) * s / s) = n := by
  rw [mul_div_cancel_right₀ _ hs, rustRound_intCast]

theorem linear_spacing_val_min (mn mx : ℚ) (mt : ℕ) :
    (linear_spacing mn mx mt).1 =
      (⌊(if |max mn mx - min mn mx| < eps then min mn mx - 1 else min mn mx) /
          (linear_spacing mn mx mt).2.2⌋ : ℚ) * (linear_spacing mn mx mt).2.2 := rfl

theorem linear_spacing_val_max (mn mx : ℚ) (mt : ℕ) :
    (linear_spacing mn mx mt).2.1 =
      (⌈mx / (linear_spacing mn mx mt).2.2⌉ : ℚ) * (linear_spacing mn mx mt).2.2 := rfl

theorem linear_ticks_auto_eq (mn mx : ℚ) (mt : ℕ) :
    (linear_ticks mn mx (TickSpec.mk Scale.Linear mt Separation.Auto)).ticks =
      (intRange
        (rustRound ((linear_spacing mn mx mt).1 / (linear_spacing mn mx mt).2.2))
        (rustRound ((linear_spacing mn mx mt).2.1 / (linear_spacing mn mx mt).2.2))).map
        (fun (k : ℤ) =>
          let v0 := (k : ℚ) * (linear_spacing mn mx mt).2.2
          let v := if |v0| < snapTol (linear_spacing mn mx mt).2.2 then 0 else v0
          Tick.mk v (format_tick v (decimals_for_step (linear_spacing mn mx mt).2.2))
            true) := rfl

/-- Claim C3 (amended): for min ≤ max (the original claim also asserted bracketing for
reversed bounds, which the counterexample refutes) and provided no tick index is
subject to nonzero zero-snapping, automatic linear ticks have the strictly positive
computed step, the first (smallest) tick is ≤ min, the last (largest) is ≥ max, and
consecutive tick values differ by exactly the step. -/
theorem claim_C3 (mn mx : ℚ) (mt : ℕ) (hmn : mn ≤ mx)
    (hsnap : ∀ k ∈ intRange
        (rustRound ((linear_spacing mn mx mt).1 / (linear_spacing mn mx mt).2.2))
        (rustRound ((linear_spacing mn mx mt).2.1 / (linear_spacing mn mx mt).2.2)),
      (k : ℚ) * (linear_spacing mn mx mt).2.2 = 0 ∨
        ¬ (|(k : ℚ) * (linear_spacing mn mx mt).2.2| <
            snapTol (linear_spacing mn mx mt).2.2)) :
    0 < (linear_spacing mn mx mt).2.2 ∧
    ∃ hne : (linear_ticks mn mx (TickSpec.mk Scale.Linear mt Separation.Auto)).ticks ≠ [],
      (((linear_ticks mn mx (TickSpec.mk Scale.Linear mt Separation.Auto)).ticks).head
          hne).value ≤ mn ∧
      mx ≤ (((linear_ticks mn mx (TickSpec.mk Scale.Linear mt Separation.Auto)).ticks).getLast
          hne).value ∧
      ∀ (i : ℕ) (hi1 : i + 1 <
          (linear_ticks mn mx (TickSpec.mk Scale.Linear mt Separation.Auto)).ticks.length),
        (((linear_ticks mn mx (TickSpec.mk Scale.Linear mt Separation.Auto)).ticks).get
            ⟨i + 1, hi1⟩).value =
          (((linear_ticks mn mx (TickSpec.mk Scale.Linear mt Separation.Auto)).ticks).get
            ⟨i, Nat.lt_of_succ_lt hi1⟩).value + (linear_spacing mn mx mt).2.2 := by
  have hstep : 0 < (linear_spacing mn mx mt).2.2 := linear_spacing_step_pos mn mx mt
  set s := (linear_spacing mn mx mt).2.2 with hs_def
  have hvmin := linear_spacing_val_min mn mx mt
  have hvmax := linear_spacing_val_max mn mx mt
  rw [min_eq_left hmn, max_eq_right hmn] at hvmin
  set L : ℚ := if |mx - mn| < eps then mn - 1 else mn with hL_def
  have hL : L ≤ mn := by
    rw [hL_def]
    split_ifs <;> linarith
  have hk0 : rustRound ((linear_spacing mn mx mt).1 / s) = ⌊L / s⌋ := by
    rw [hvmin, rustRound_mul_div _ _ hstep.ne']
  have hk1 : rustRound ((linear_spacing mn mx mt).2.1 / s) = ⌈mx / s⌉ := by
    rw [hvmax, rustRound_mul_div _ _ hstep.ne']
  have hk0k1 : ⌊L / s⌋ ≤ ⌈mx / s⌉ := by
    have h1 : L / s ≤ mx / s := by
      apply div_le_div_of_nonneg_right ?_ hstep.le
      linarith
    have h2 : ((⌊L / s⌋ : ℤ) : ℚ) ≤ ((⌈mx / s⌉ : ℤ) : ℚ) :=
      le_trans (Int.floor_le _) (le_trans h1 (Int.le_ceil _))
    exact_mod_cast h2
  have hticks := linear_ticks_auto_eq mn mx mt
  rw [hk0, hk1] at hticks
  rw [hk0, hk1] at hsnap
  set T := (linear_ticks mn mx (TickSpec.mk Scale.Linear mt Separation.Auto)).ticks
    with hT_def
  have hlen : T.length = (⌈mx / s⌉ + 1 - ⌊L / s⌋).toNat := by
    rw [hticks, List.length_map, intRange_length]
  have hlenpos : 0 < T.length := by
    rw [hlen]
    omega
  have hne : T ≠ [] := List.length_pos.mp hlenpos
  have hval : ∀ (i : ℕ) (hi : i < T.length), (T.get ⟨i, hi⟩).value =
      ((⌊L / s⌋ + (i : ℤ) : ℤ) : ℚ) * s := by
    intro i hi
    have hi2 : i < (intRange ⌊L / s⌋ ⌈mx / s⌉).length := by
      rw [← List.length_map _ (fun (k : ℤ) =>
        let v0 := (k : ℚ) * s
        let v := if |v0| < snapTol s then 0 else v0
        Tick.mk v (format_tick v (decimals_for_step s)) true), ← hticks]
      exact hi
    have hget : T.get ⟨i, hi⟩ = (fun (k : ℤ) =>
        let v0 := (k : ℚ) * s
        let v := if |v0| < snapTol s then 0 else v0
        Tick.mk v (format_tick v (decimals_for_step s)) true)
          ((intRange ⌊L / s⌋ ⌈mx / s⌉)[i]) := by
      simp only [List.get_eq_getElem, hticks, List.getElem_map, hs_def]
    rw [hget, intRange_getElem]
    have hmem : ⌊L / s⌋ + (i : ℤ) ∈ intRange ⌊L / s⌋ ⌈mx / s⌉ := by
      refine intRange_mem_of (by omega) ?_
      rw [hlen] at hi
      omega
    rcases hsnap _ hmem with h0 | hno
    · simp only
      rw [h0]
      split_ifs <;> rfl
    · simp only
      rw [if_neg hno]
  have hhead : (T.head hne).value ≤ mn := by
    have h0 : (T.head hne).value = (T.get ⟨0, hlenpos⟩).value := by
      rw [List.get_eq_getElem, List.head_eq_getElem]
    rw [h0, hval 0 hlenpos]
    have h1 : (⌊L / s⌋ : ℚ) * s ≤ L := floor_mul_le hstep
    push_cast
    linarith
  have hlast : mx ≤ (T.getLast hne).value := by
    have hlt : T.length - 1 < T.length := by omega
    have h0 : (T.getLast hne).value = (T.get ⟨T.length - 1, hlt⟩).value := by
      rw [List.get_eq_getElem, List.getLast_eq_getElem]
    rw [h0, hval _ hlt]
    have hidx : ⌊L / s⌋ + ((T.length - 1 : ℕ) : ℤ) = ⌈mx / s⌉ := by
      rw [hlen]
      omega
    rw [hidx]
    exact le_ceil_mul hstep
  refine ⟨hstep, hne, hhead, hlast, ?_⟩
  intro i hi1
  have hi0 : i < T.length := by omega
  rw [hval (i + 1) hi1, hval i hi0]
  push_cast
  ring

/-- Witness for C3 at (0, 10, 5 ticks): step 2, ticks 0,2,…,10; no index is snapped,
the first tick 0 ≤ 0 and the last 10 ≥ 10. -/
theorem claim_C3_witness :
    ((0:ℚ) ≤ 10) ∧
    (∀ k ∈ intRange
        (rustRound ((linear_spacing 0 10 5).1 / (linear_spacing 0 10 5).2.2))
        (rustRound ((linear_spacing 0 10 5).2.1 / (linear_spacing 0 10 5).2.2)),
      (k : ℚ) * (linear_spacing 0 10 5).2.2 = 0 ∨
        ¬ (|(k : ℚ) * (linear_spacing 0 10 5).2.2| < snapTol (linear_spacing 0 10 5).2.2)) ∧
    (0 < (linear_spacing 0 10 5).2.2 ∧
      ∃ hne : (linear_ticks 0 10 (TickSpec.mk Scale.Linear 5 Separation.Auto)).ticks ≠ [],
        (((linear_ticks 0 10 (TickSpec.mk Scale.Linear 5 Separation.Auto)).ticks).head
            hne).value ≤ 0 ∧
        (10:ℚ) ≤ (((linear_ticks 0 10
            (TickSpec.mk Scale.Linear 5 Separation.Auto)).ticks).getLast hne).value ∧
        ∀ (i : ℕ) (hi1 : i + 1 <
            (linear_ticks 0 10 (TickSpec.mk Scale.Linear 5 Separation.Auto)).ticks.length),
          (((linear_ticks 0 10 (TickSpec.mk Scale.Linear 5 Separation.Auto)).ticks).get
              ⟨i + 1, hi1⟩).value =
            (((linear_ticks 0 10 (TickSpec.mk Scale.Linear 5 Separation.Auto)).ticks).get
              ⟨i, Nat.lt_of_succ_lt hi1⟩).value + (linear_spacing 0 10 5).2.2) :=
  ⟨by decide, by decide, claim_C3 0 10 5 (by decide) (by decide)⟩

theorem mem_intRange {a b k : ℤ} : k ∈ intRange a b ↔ a ≤ k ∧ k ≤ b := by
  simp only [intRange, List.mem_map, List.mem_range]
  constructor
  · rintro ⟨i, hi, rfl⟩
    omega
  · rintro ⟨h1, h2⟩
    exact ⟨(k - a).toNat, by omega, by omega⟩

theorem snap_neg (tol x : ℚ) :
    (if |-x| < tol then 0 else -x) = -(if |x| < tol then 0 else x) := by
  rw [abs_neg]
  split_ifs <;> simp

theorem linear_ticks_symm (a : ℚ) (m : ℕ) (ha : 1 ≤ a) :
    ∀ t ∈ (linear_ticks (-a) a (TickSpec.mk Scale.Linear m Separation.Auto)).ticks,
      ∃ u ∈ (linear_ticks (-a) a (TickSpec.mk Scale.Linear m Separation.Auto)).ticks,
        u.value = -t.value := by
  have hstep : 0 < (linear_spacing (-a) a m).2.2 := linear_spacing_step_pos _ _ _
  set s := (linear_spacing (-a) a m).2.2 with hs_def
  have hmin : min (-a) a = -a := min_eq_left (by linarith)
  have hmax : max (-a) a = a := max_eq_right (by linarith)
  have hdegc : ¬ (|a - -a| < eps) := by
    intro hcon
    have h2 : a - -a = 2 * a := by ring
    rw [h2, abs_of_nonneg (by linarith)] at hcon
    unfold eps at hcon
    norm_num at hcon
    linarith
  have hvmin := linear_spacing_val_min (-a) a m
  have hvmax := linear_spacing_val_max (-a) a m
  rw [hmin, hmax, if_neg hdegc] at hvmin
  have hfln : ⌊-a / s⌋ = -⌈a / s⌉ := by
    rw [neg_div, Int.floor_neg]
  have hticks := linear_ticks_auto_eq (-a) a m
  have hk0 : rustRound ((linear_spacing (-a) a m).1 / s) = -⌈a / s⌉ := by
    rw [hvmin, rustRound_mul_div _ _ hstep.ne', hfln]
  have hk1 : rustRound ((linear_spacing (-a) a m).2.1 / s) = ⌈a / s⌉ := by
    rw [hvmax, rustRound_mul_div _ _ hstep.ne']
  rw [hk0, hk1] at hticks
  intro t htmem
  rw [hticks] at htmem ⊢
  obtain ⟨k, hk, rfl⟩ := List.mem_map.mp htmem
  have hkb := mem_intRange.mp hk
  refine ⟨_, List.mem_map.mpr ⟨-k, mem_intRange.mpr ⟨by omega, by omega⟩, rfl⟩, ?_⟩
  show (if |((-k : ℤ) : ℚ) * s| < snapTol s then 0 else ((-k : ℤ) : ℚ) * s) =
    -(if |(k : ℚ) * s| < snapTol s then 0 else (k : ℚ) * s)
  rw [Int.cast_neg, neg_mul]
  exact snap_neg _ _

theorem dedupGo_cover (kept : Tick) (l : List Tick) :
    ∀ x ∈ l, ∃ y, (y = kept ∨ y ∈ dedupGo kept l) ∧ |x.value - y.value| < 1 / 10 ^ 6 := by
  induction l generalizing kept with
  | nil =>
    intro x hx
    cases hx
  | cons u us ih =>
    intro x hx
    by_cases h : |u.value - kept.value| < 1 / 10 ^ 6
    · simp only [dedupGo, if_pos h]
      rcases List.mem_cons.mp hx with rfl | hx2
      · exact ⟨kept, Or.inl rfl, h⟩
      · exact ih kept x hx2
    · simp only [dedupGo, if_neg h]
      rcases List.mem_cons.mp hx with rfl | hx2
      · refine ⟨x, Or.inr (List.mem_cons_self _ _), ?_⟩
        simp only [sub_self, abs_zero]
        norm_num
      · obtain ⟨y, hy, hd⟩ := ih u x hx2
        rcases hy with rfl | hy2
        · exact ⟨y, Or.inr (List.mem_cons_self _ _), hd⟩
        · exact ⟨y, Or.inr (List.mem_cons_of_mem _ hy2), hd⟩

theorem dedupTicks_cover (l : List Tick) :
    ∀ x ∈ l, ∃ y ∈ dedupTicks l, |x.value - y.value| < 1 / 10 ^ 6 := by
  cases l with
  | nil =>
    intro x hx
    cases hx
  | cons t ts =>
    intro x hx
    simp only [dedupTicks]
    rcases List.mem_cons.mp hx with rfl | hx2
    · refine ⟨x, List.mem_cons_self _ _, ?_⟩
      simp only [sub_self, abs_zero]
      norm_num
    · obtain ⟨y, hy, hd⟩ := dedupGo_cover t ts x hx2
      rcases hy with rfl | hy2
      · exact ⟨y, List.mem_cons_self _ _, hd⟩
      · exact ⟨y, List.mem_cons_of_mem _ hy2, hd⟩

/-- Claim C5 (amended): for a symmetric range [-R, R] with R > lin_threshold ≥ 1 and
base ≥ 1, whenever the generated symlog tick set contains a tick at value
v > lin_threshold, it also contains a tick whose value lies within 1e-6 of -v. The
original claim demanded the exact mirrored tick with the exact mirrored label, which
the keep-first deduplication refutes (see the counterexample): before deduplication
the merged tick list is exactly value-symmetric, and deduplication only moves a
retained representative by less than its 1e-6 tolerance. -/
theorem claim_C5 (R base thr : ℚ) (minor : Bool) (mt : ℕ) (t : Tick)
    (hbase : 1 ≤ base) (hthr : 1 ≤ thr) (hR : thr < R)
    (ht : t ∈ (symlog_ticks (-R) R base thr minor mt).ticks)
    (_hv : thr < t.value) :
    ∃ u ∈ (symlog_ticks (-R) R base thr minor mt).ticks,
      |u.value + t.value| < 1 / 10 ^ 6 := by
  have hguard : ¬ (base < 1 ∨ thr < 1) := by
    push_neg
    exact ⟨hbase, hthr⟩
  have hlo : min (-R) R = -R := min_eq_left (by linarith)
  have hhi : max (-R) R = R := max_eq_right (by linarith)
  have hclo : max (-R) (-thr) = -thr := max_eq_right (by linarith)
  have hchi : min R thr = thr := min_eq_right (by linarith)
  set C := ((linear_ticks (-thr) thr (TickSpec.mk Scale.Linear (min (max mt 3) 7)
      Separation.Auto)).ticks).map
      (fun u => Tick.mk u.value u.label
        (decide (abs u.value < eps ∨ abs (abs u.value - thr) < eps))) with hC
  set P := (log_ticks thr R base minor).ticks with hP
  set N := P.map (fun u => Tick.mk (-u.value)
      (if u.label = "" then "" else "-" ++ u.label) u.major) with hN
  have heq : (symlog_ticks (-R) R base thr minor mt).ticks =
      dedupTicks (sortTicks (C ++ P ++ N)) := by
    rw [hC, hP, hN]
    simp only [symlog_ticks, if_neg hguard, hlo, hhi, hclo, hchi, neg_neg]
    rw [if_pos (show (-thr : ℚ) ≤ thr by linarith), if_pos hR,
      if_pos (show (-R : ℚ) < -thr by linarith)]
  rw [heq] at ht ⊢
  have htall : t ∈ C ++ P ++ N :=
    mem_sortTicks.mp ((dedupTicks_sublist _).subset ht)
  have hmirror : ∃ u ∈ C ++ P ++ N, u.value = -t.value := by
    rcases List.mem_append.mp htall with h1 | h2
    · rcases List.mem_append.mp h1 with hc | hp
      · obtain ⟨u0, hu0, rfl⟩ := List.mem_map.mp hc
        obtain ⟨u1, hu1, hval⟩ := linear_ticks_symm thr (min (max mt 3) 7) hthr u0 hu0
        refine ⟨_, List.mem_append.mpr (Or.inl (List.mem_append.mpr
          (Or.inl (List.mem_map.mpr ⟨u1, hu1, rfl⟩)))), ?_⟩
        simpa using hval
      · refine ⟨_, List.mem_append.mpr (Or.inr (List.mem_map.mpr ⟨t, hp, rfl⟩)), rfl⟩
    · obtain ⟨u0, hu0, rfl⟩ := List.mem_map.mp h2
      refine ⟨u0, List.mem_append.mpr (Or.inl (List.mem_append.mpr (Or.inr hu0))), ?_⟩
      simp
  obtain ⟨u1, hu1, huv⟩ := hmirror
  obtain ⟨y, hy, hyd⟩ := dedupTicks_cover (sortTicks (C ++ P ++ N)) u1
    (mem_sortTicks.mpr hu1)
  refine ⟨y, hy, ?_⟩
  rw [huv] at hyd
  have hshape : -t.value - y.value = -(y.value + t.value) := by ring
  rw [hshape, abs_neg] at hyd
  exact hyd

/-- Witness for C5 (amended) on the range [-150, 150] with base 10, threshold 1: the
tick at value 10 has a mirrored tick within 1e-6 (namely -10 itself). -/
theorem claim_C5_witness :
    (1:ℚ) ≤ 10 ∧ (1:ℚ) ≤ 1 ∧ (1:ℚ) < 150 ∧
    Tick.mk 10 "10" true ∈ (symlog_ticks (-150) 150 10 1 false 5).ticks ∧
    (1:ℚ) < (Tick.mk (10:ℚ) "10" true).value ∧
    ∃ u ∈ (symlog_ticks (-150) 150 10 1 false 5).ticks,
      |u.value + (Tick.mk (10:ℚ) "10" true).value| < 1 / 10 ^ 6 := by
  refine ⟨by decide, by decide, by decide, by decide, by decide, ?_⟩
  exact claim_C5 150 10 1 false 5 (Tick.mk 10 "10" true) (by decide) (by decide)
    (by decide) (by decide) (by decide)

end Locus
